import Mathlib

/-!
Shallow embedding of the analytical core of LiquidityHunter (src/app.py):
swing-point detection (`find_swing_points`, built on
`scipy.signal.argrelextrema` with its default `mode = clip`), liquidation-zone
projection and aggregation (`calculate_liquidation_zones`), and the
display-band filter (`range_mask` / `liq_df[range_mask]`).

Python floats are modelled as rationals (ℚ); the arithmetic of the formulas
involved is exact on the inputs considered.  A Python list built by repeated
`append` inside nested `for` loops is modelled as a left fold accumulating by
`++ [x]`.
-/

namespace LiquidityHunter

/-- Index clipping as performed by `numpy.take(..., mode = clip)`: an
out-of-range index is clamped to the valid range `[0, n-1]`. -/
def clipIdx (n : ℕ) (j : ℤ) : ℕ := (min ((n : ℤ) - 1) (max 0 j)).toNat

/-- Model of `data.take(locs ± shift, mode = clip)` at a single location: read the
element at the clipped index.  (The default `0` of `getD` is never reached at
the indices used: `clipIdx` stays inside the list whenever it is nonempty.) -/
def takeClip (data : List ℚ) (j : ℤ) : ℚ := data.getD (clipIdx data.length j) 0

/-- One entry of the boolean result array of
`scipy.signal._boolrelextrema(data, comparator, order, mode = clip)`:
for every `shift` in `1..order`, `comparator(data[i], data[i+shift])` and
`comparator(data[i], data[i-shift])` hold, where out-of-range neighbours are
index-clipped. -/
def boolrelextremaAt (data : List ℚ) (cmp : ℚ → ℚ → Bool) (order i : ℕ) : Bool :=
  (List.range order).all fun s =>
    cmp (data.getD i 0) (takeClip data ((i : ℤ) + ((s : ℤ) + 1))) &&
    cmp (data.getD i 0) (takeClip data ((i : ℤ) - ((s : ℤ) + 1)))

/-- Model of `scipy.signal.argrelextrema(data, comparator, order=order)` (with the
default `mode = clip`): the sorted list of indices whose entry satisfies the
relational test against all clipped neighbours within `order`. -/
def argrelextrema (data : List ℚ) (cmp : ℚ → ℚ → Bool) (order : ℕ) : List ℕ :=
  (List.range data.length).filter (boolrelextremaAt data cmp order)

/-- Comparator `np.greater_equal` applied as `comparator(main, neighbour)`. -/
def greaterEqualCmp (a b : ℚ) : Bool := decide (b ≤ a)

/-- Comparator `np.less_equal` applied as `comparator(main, neighbour)`. -/
def lessEqualCmp (a b : ℚ) : Bool := decide (a ≤ b)

/-- Model of `find_swing_points`, line 47 of src/app.py: indices marked in the
`Swing_High` column (`argrelextrema(df.High.values, np.greater_equal, order)`). -/
def swing_high_indices (high : List ℚ) (order : ℕ) : List ℕ :=
  argrelextrema high greaterEqualCmp order

/-- Model of `find_swing_points`, line 49 of src/app.py: indices marked in the
`Swing_Low` column (`argrelextrema(df.Low.values, np.less_equal, order)`). -/
def swing_low_indices (low : List ℚ) (order : ℕ) : List ℕ :=
  argrelextrema low lessEqualCmp order

/-- Model of `df.Swing_High.dropna().values` as consumed by the aggregator: the high
prices at the marked indices, in series order. -/
def swing_high_values (high : List ℚ) (order : ℕ) : List ℚ :=
  (swing_high_indices high order).map (fun i => high.getD i 0)

/-- Model of `df.Swing_Low.dropna().values` as consumed by the aggregator: the low
prices at the marked indices, in series order. -/
def swing_low_values (low : List ℚ) (order : ℕ) : List ℚ :=
  (swing_low_indices low order).map (fun i => low.getD i 0)

/-- The two sides of a liquidation estimate (`Type` field of a zone record). -/
inductive ZoneType where
  | longLiq
  | shortLiq
deriving DecidableEq

/-- One zone record appended by `calculate_liquidation_zones`:
`{'Price': liq_price, 'Type': ..., 'Strength': lev_val}`.  `Strength` is the
Python int obtained from the tier string, so it is modelled as ℤ. -/
structure Zone where
  price : ℚ
  type : ZoneType
  strength : ℤ
deriving DecidableEq

/-- Position side for the Liquidation Projector. -/
inductive Side where
  | long
  | short
deriving DecidableEq

/-- The Liquidation Projector, inlined at lines 67 and 77 of src/app.py:
`liq_price = price - (price * (1 / lev_val))` for the long side and
`liq_price = price + (price * (1 / lev_val))` for the short side.
In Python `1 / lev_val` raises `ZeroDivisionError` when `lev_val = 0`, which
is modelled as `none`; for every other leverage (positive or negative) the
code computes and returns the value. -/
def project (price : ℚ) (side : Side) (lev : ℤ) : Option ℚ :=
  if lev = 0 then none
  else
    match side with
    | .long => some (price - price * (1 / (lev : ℚ)))
    | .short => some (price + price * (1 / (lev : ℚ)))

/-- The long-side zone record appended at line 68 of src/app.py. -/
def mkLongZone (price : ℚ) (lev : ℤ) : Zone :=
  ⟨price - price * (1 / (lev : ℚ)), .longLiq, lev⟩

/-- The short-side zone record appended at line 78 of src/app.py. -/
def mkShortZone (price : ℚ) (lev : ℤ) : Zone :=
  ⟨price + price * (1 / (lev : ℚ)), .shortLiq, lev⟩

/-- Model of `calculate_liquidation_zones(df, leverages)`, lines 52-80 of src/app.py.
`swingLows` and `swingHighs` are the dropna'd `Swing_Low` / `Swing_High`
columns; `leverages` is the list of `lev_val = int(lev.replace('x',''))`
values in the caller-supplied order.  The nested `for` loops appending to
`zones` are modelled as left folds: first every swing low against every tier
(long liquidations), then every swing high against every tier (short
liquidations).  ℚ division makes `1 / 0 = 0` where Python raises
`ZeroDivisionError`, so theorems about this function assume positive tiers
(the UI only offers 10x/25x/50x/100x). -/
def calculate_liquidation_zones (swingLows swingHighs : List ℚ)
    (leverages : List ℤ) : List Zone :=
  let zones : List Zone := swingLows.foldl
    (fun zs price => leverages.foldl
      (fun zs2 lev => zs2 ++ [mkLongZone price lev]) zs) []
  swingHighs.foldl
    (fun zs price => leverages.foldl
      (fun zs2 lev => zs2 ++ [mkShortZone price lev]) zs) zones

/-- The display filter at lines 99-100 of src/app.py:
`range_mask = (liq_df.Price > current_price * 0.85) & (liq_df.Price < current_price * 1.15)`
followed by `liq_df[range_mask]`.  A boolean mask selection on a dataframe
keeps exactly the rows whose mask is true, in their original order, rows
unchanged — i.e. a filter.  The two hard-coded ratios `0.85` and `1.15` are
the `lower_ratio` / `upper_ratio` parameters of the spec's contract. -/
def filter_near_current (zones : List Zone) (current_price lower_ratio upper_ratio : ℚ) :
    List Zone :=
  zones.filter fun z =>
    decide (current_price * lower_ratio < z.price) &&
    decide (z.price < current_price * upper_ratio)

/-! ### Helper lemmas -/

theorem clipIdx_lt (n : ℕ) (hn : 0 < n) (j : ℤ) : clipIdx n j < n := by
  unfold clipIdx
  omega

theorem clipIdx_coe (n : ℕ) (hn : 0 < n) (j : ℤ) :
    (clipIdx n j : ℤ) = min ((n : ℤ) - 1) (max 0 j) := by
  unfold clipIdx
  omega

theorem clipIdx_of_valid (n : ℕ) (j : ℤ) (h0 : 0 ≤ j) (h1 : j < (n : ℤ)) :
    (clipIdx n j : ℤ) = j := by
  unfold clipIdx
  omega

theorem mem_argrelextrema (data : List ℚ) (cmp : ℚ → ℚ → Bool) (w i : ℕ) :
    i ∈ argrelextrema data cmp w ↔
      i < data.length ∧ boolrelextremaAt data cmp w i = true := by
  simp [argrelextrema, List.mem_filter, List.mem_range, and_comm]

/-- Core characterization: under index clipping, the shift-by-shift relational
test of `_boolrelextrema` holds at a valid index `i` exactly when the relation
holds against every index of the window `[i-w, i+w]` clipped to the series
bounds. -/
theorem boolrelextremaAt_iff (data : List ℚ) (cmp : ℚ → ℚ → Bool)
    (r : ℚ → ℚ → Prop) (hc : ∀ a b, cmp a b = true ↔ r a b) (hr : ∀ x, r x x)
    (w i : ℕ) (hi : i < data.length) :
    boolrelextremaAt data cmp w i = true ↔
      ∀ j : ℕ, j < data.length → (i : ℤ) - w ≤ j → (j : ℤ) ≤ (i : ℤ) + w →
        r (data.getD i 0) (data.getD j 0) := by
  have hn : 0 < data.length := Nat.lt_of_le_of_lt (Nat.zero_le i) hi
  unfold boolrelextremaAt
  rw [List.all_eq_true]
  constructor
  · intro hall j hj hlow hhigh
    rcases Nat.lt_trichotomy j i with hlt | rfl | hgt
    · have hs : i - j - 1 ∈ List.range w := by
        rw [List.mem_range]
        omega
      have h2 := hall _ hs
      rw [Bool.and_eq_true] at h2
      have h3 := (hc _ _).mp h2.2
      have harg : (i : ℤ) - (((i - j - 1 : ℕ) : ℤ) + 1) = (j : ℤ) := by omega
      rw [harg] at h3
      unfold takeClip at h3
      have hclip : clipIdx data.length (j : ℤ) = j := by
        have := clipIdx_of_valid data.length (j : ℤ) (by omega) (by omega)
        omega
      rw [hclip] at h3
      exact h3
    · exact hr _
    · have hs : j - i - 1 ∈ List.range w := by
        rw [List.mem_range]
        omega
      have h2 := hall _ hs
      rw [Bool.and_eq_true] at h2
      have h3 := (hc _ _).mp h2.1
      have harg : (i : ℤ) + (((j - i - 1 : ℕ) : ℤ) + 1) = (j : ℤ) := by omega
      rw [harg] at h3
      unfold takeClip at h3
      have hclip : clipIdx data.length (j : ℤ) = j := by
        have := clipIdx_of_valid data.length (j : ℤ) (by omega) (by omega)
        omega
      rw [hclip] at h3
      exact h3
  · intro hdom s hs
    rw [List.mem_range] at hs
    rw [Bool.and_eq_true]
    have hp := clipIdx_coe data.length hn ((i : ℤ) + ((s : ℤ) + 1))
    have hm := clipIdx_coe data.length hn ((i : ℤ) - ((s : ℤ) + 1))
    constructor
    · rw [hc]
      unfold takeClip
      exact hdom _ (clipIdx_lt _ hn _) (by omega) (by omega)
    · rw [hc]
      unfold takeClip
      exact hdom _ (clipIdx_lt _ hn _) (by omega) (by omega)

/-- Every nonempty list has an index at which `getD` is maximal. -/
theorem exists_getD_max (l : List ℚ) (hl : l ≠ []) :
    ∃ i, i < l.length ∧ ∀ j, j < l.length → l.getD j 0 ≤ l.getD i 0 := by
  induction l with
  | nil => exact absurd rfl hl
  | cons a t ih =>
    rcases eq_or_ne t [] with rfl | ht
    · refine ⟨0, by simp, ?_⟩
      intro j hj
      have hj0 : j = 0 := by
        simp only [List.length_cons, List.length_nil] at hj
        omega
      subst hj0
      simp
    · obtain ⟨i, hi, hmax⟩ := ih ht
      by_cases hat : a ≤ t.getD i 0
      · refine ⟨i + 1, by simpa using hi, ?_⟩
        intro j hj
        cases j with
        | zero => simpa using hat
        | succ k => simpa using hmax k (by simpa using hj)
      · refine ⟨0, by simp, ?_⟩
        intro j hj
        cases j with
        | zero => simp
        | succ k =>
          have hk := hmax k (by simpa using hj)
          simp only [List.getD_cons_succ, List.getD_cons_zero]
          exact le_trans hk (le_of_not_le hat)

/-- Every nonempty list has an index at which `getD` is minimal. -/
theorem exists_getD_min (l : List ℚ) (hl : l ≠ []) :
    ∃ i, i < l.length ∧ ∀ j, j < l.length → l.getD i 0 ≤ l.getD j 0 := by
  induction l with
  | nil => exact absurd rfl hl
  | cons a t ih =>
    rcases eq_or_ne t [] with rfl | ht
    · refine ⟨0, by simp, ?_⟩
      intro j hj
      have hj0 : j = 0 := by
        simp only [List.length_cons, List.length_nil] at hj
        omega
      subst hj0
      simp
    · obtain ⟨i, hi, hmin⟩ := ih ht
      by_cases hat : t.getD i 0 ≤ a
      · refine ⟨i + 1, by simpa using hi, ?_⟩
        intro j hj
        cases j with
        | zero => simpa using hat
        | succ k => simpa using hmin k (by simpa using hj)
      · refine ⟨0, by simp, ?_⟩
        intro j hj
        cases j with
        | zero => simp
        | succ k =>
          have hk := hmin k (by simpa using hj)
          simp only [List.getD_cons_succ, List.getD_cons_zero]
          exact le_trans (le_of_not_le hat) hk

/-- A global-maximum index always passes the clipped relational test for
`np.greater_equal`, whatever the window: its clipped neighbours are ordinary
elements of the series. -/
theorem swing_high_indices_ne_nil (h : List ℚ) (w : ℕ) (hne : h ≠ []) :
    swing_high_indices h w ≠ [] := by
  obtain ⟨i, hi, hmax⟩ := exists_getD_max h hne
  have hn : 0 < h.length := List.length_pos.mpr hne
  have hmem : i ∈ swing_high_indices h w := by
    rw [swing_high_indices, mem_argrelextrema]
    refine ⟨hi, ?_⟩
    rw [boolrelextremaAt_iff h greaterEqualCmp (fun a b => b ≤ a)
      (fun a b => by simp [greaterEqualCmp]) (fun x => le_refl x) w i hi]
    intro j hj _ _
    exact hmax j hj
  intro hempty
  rw [hempty] at hmem
  exact absurd hmem (List.not_mem_nil i)

/-- A global-minimum index always passes the clipped relational test for
`np.less_equal`, whatever the window. -/
theorem swing_low_indices_ne_nil (l : List ℚ) (w : ℕ) (hne : l ≠ []) :
    swing_low_indices l w ≠ [] := by
  obtain ⟨i, hi, hmin⟩ := exists_getD_min l hne
  have hn : 0 < l.length := List.length_pos.mpr hne
  have hmem : i ∈ swing_low_indices l w := by
    rw [swing_low_indices, mem_argrelextrema]
    refine ⟨hi, ?_⟩
    rw [boolrelextremaAt_iff l lessEqualCmp (fun a b => a ≤ b)
      (fun a b => by simp [lessEqualCmp]) (fun x => le_refl x) w i hi]
    intro j hj _ _
    exact hmin j hj
  intro hempty
  rw [hempty] at hmem
  exact absurd hmem (List.not_mem_nil i)

/-- Appending one element per tier in a loop is mapping over the tiers. -/
theorem foldl_append_singleton (levs : List ℤ) (g : ℤ → Zone) (zs : List Zone) :
    levs.foldl (fun acc l => acc ++ [g l]) zs = zs ++ levs.map g := by
  induction levs generalizing zs with
  | nil => simp
  | cons a t ih => simp [List.foldl_cons, ih]

/-- Appending one block per swing in a loop is flattening the mapped blocks. -/
theorem foldl_append_block (prices : List ℚ) (f : ℚ → List Zone) (zs : List Zone) :
    prices.foldl (fun acc p => acc ++ f p) zs = zs ++ (prices.map f).flatten := by
  induction prices generalizing zs with
  | nil => simp
  | cons a t ih => simp [List.foldl_cons, ih]

/-- The double loop of `calculate_liquidation_zones` in closed form: all
long-liquidation records (swing lows in series order, tiers in caller order
inside each), followed by all short-liquidation records (same shape). -/
theorem calculate_liquidation_zones_eq (lows highs : List ℚ) (levs : List ℤ) :
    calculate_liquidation_zones lows highs levs =
      (lows.map fun p => levs.map (mkLongZone p)).flatten ++
      (highs.map fun p => levs.map (mkShortZone p)).flatten := by
  unfold calculate_liquidation_zones
  simp only [foldl_append_singleton]
  rw [foldl_append_block, foldl_append_block]
  simp

/-- Summing a constant block length over a list of swings. -/
theorem sum_map_length_const (ps : List ℚ) (f : ℚ → List Zone) (n : ℕ)
    (hf : ∀ p, (f p).length = n) :
    (ps.map (List.length ∘ f)).sum = ps.length * n := by
  induction ps with
  | nil => simp
  | cons a t ih =>
    simp only [List.map_cons, List.sum_cons, Function.comp_apply, hf, ih,
      List.length_cons]
    ring

/-! ### Claim theorems -/

/-- C1: for every positive price `p` and positive leverage tier `L`, the
Liquidation Projector returns exactly `p * (1 - 1/L)` for a Long position and
exactly `p * (1 + 1/L)` for a Short position. -/
theorem projector_formula (p : ℚ) (L : ℤ) (hp : 0 < p) (hL : 0 < L) :
    project p .long L = some (p * (1 - 1 / (L : ℚ))) ∧
    project p .short L = some (p * (1 + 1 / (L : ℚ))) := by
  have hL0 : L ≠ 0 := by omega
  constructor <;>
  · simp only [project, hL0, if_false, ite_false, Option.some.injEq]
    ring

/-- Witness for C1 at price 90 and leverage 10 (the spec's own scenario:
the long liquidation is 81). -/
theorem projector_formula_witness :
    (0 : ℚ) < 90 ∧ (0 : ℤ) < 10 ∧
      (project 90 .long 10 = some (90 * (1 - 1 / ((10 : ℤ) : ℚ))) ∧
       project 90 .short 10 = some (90 * (1 + 1 / ((10 : ℤ) : ℚ)))) :=
  ⟨by decide, by decide, projector_formula 90 10 (by decide) (by decide)⟩

/-- C2: a bar at a valid index `i` is marked as a swing High exactly when its
high is greater-than-or-equal to the high of every bar with index in
`[i-w, i+w]` clipped at the series bounds, and symmetrically a swing Low with
less-than-or-equal on the low field.  (With non-strict comparisons, every bar
of a flat run sharing the window maximum therefore qualifies.) -/
theorem swing_marking_characterization (high low : List ℚ) (w i : ℕ)
    (hw : 1 ≤ w) (hih : i < high.length) (hil : i < low.length) :
    (i ∈ swing_high_indices high w ↔
      ∀ j : ℕ, j < high.length → (i : ℤ) - w ≤ j → (j : ℤ) ≤ (i : ℤ) + w →
        high.getD j 0 ≤ high.getD i 0) ∧
    (i ∈ swing_low_indices low w ↔
      ∀ j : ℕ, j < low.length → (i : ℤ) - w ≤ j → (j : ℤ) ≤ (i : ℤ) + w →
        low.getD i 0 ≤ low.getD j 0) := by
  constructor
  · rw [swing_high_indices, mem_argrelextrema,
      boolrelextremaAt_iff high greaterEqualCmp (fun a b => b ≤ a)
        (fun a b => by simp [greaterEqualCmp]) (fun x => le_refl x) w i hih]
    simp [hih]
  · rw [swing_low_indices, mem_argrelextrema,
      boolrelextremaAt_iff low lessEqualCmp (fun a b => a ≤ b)
        (fun a b => by simp [lessEqualCmp]) (fun x => le_refl x) w i hil]
    simp [hil]

/-- Witness for C2 on a concrete five-bar series with window 1 at index 2. -/
theorem swing_marking_characterization_witness :
    1 ≤ 1 ∧ 2 < [(1 : ℚ), 2, 5, 2, 1].length ∧ 2 < [(5 : ℚ), 2, 0, 2, 5].length ∧
      ((2 ∈ swing_high_indices [(1 : ℚ), 2, 5, 2, 1] 1 ↔
        ∀ j : ℕ, j < [(1 : ℚ), 2, 5, 2, 1].length → (2 : ℤ) - 1 ≤ j →
          (j : ℤ) ≤ (2 : ℤ) + 1 →
          [(1 : ℚ), 2, 5, 2, 1].getD j 0 ≤ [(1 : ℚ), 2, 5, 2, 1].getD 2 0) ∧
       (2 ∈ swing_low_indices [(5 : ℚ), 2, 0, 2, 5] 1 ↔
        ∀ j : ℕ, j < [(5 : ℚ), 2, 0, 2, 5].length → (2 : ℤ) - 1 ≤ j →
          (j : ℤ) ≤ (2 : ℤ) + 1 →
          [(5 : ℚ), 2, 0, 2, 5].getD 2 0 ≤ [(5 : ℚ), 2, 0, 2, 5].getD j 0)) :=
  ⟨le_refl 1, by decide, by decide,
    swing_marking_characterization [(1 : ℚ), 2, 5, 2, 1] [(5 : ℚ), 2, 0, 2, 5]
      1 2 (le_refl 1) (by decide) (by decide)⟩

/-- C7 counterexample: the code performs no input validation.  At the
non-positive price -100 with leverage 10 the inlined projector returns the
projected price -90 rather than failing, and at the negative leverage -5 with
price 100 it returns 120. -/
theorem projector_validation_counterexample :
    project (-100) .long 10 = some (-90) ∧
    project 100 .long (-5) = some 120 ∧
    project (-100) .long 10 ≠ none := by
  refine ⟨by norm_num [project], by norm_num [project], by simp [project]⟩

/-- C7 amended: the projector validates nothing.  For every price (of any
sign) and every nonzero leverage (of any sign) it returns the projected price
`p - p/L` (Long) or `p + p/L` (Short); it fails only when the leverage is 0,
and that failure is a `ZeroDivisionError` from `1 / lev_val`, not an
`InvalidInput` rejection. -/
theorem projector_no_validation (p : ℚ) (L : ℤ) (hL : L ≠ 0) :
    project p .long L = some (p - p * (1 / (L : ℚ))) ∧
    project p .short L = some (p + p * (1 / (L : ℚ))) ∧
    project p .long 0 = none ∧ project p .short 0 = none := by
  simp [project, hL]

/-- Witness for amended C7 at the non-positive price -100 and leverage 10. -/
theorem projector_no_validation_witness :
    (10 : ℤ) ≠ 0 ∧
      (project (-100) .long 10 = some ((-100) - (-100) * (1 / ((10 : ℤ) : ℚ))) ∧
       project (-100) .short 10 = some ((-100) + (-100) * (1 / ((10 : ℤ) : ℚ))) ∧
       project (-100) .long 0 = none ∧ project (-100) .short 0 = none) :=
  ⟨by decide, projector_no_validation (-100) 10 (by decide)⟩

/-- C3: the aggregator emits exactly `(#Low swings + #High swings) * #tiers`
liquidation zones: one long zone per (Low swing, tier) pair and one short zone
per (High swing, tier) pair. -/
theorem zone_cardinality (lows highs : List ℚ) (levs : List ℤ)
    (hlev : ∀ l ∈ levs, 0 < l) :
    (calculate_liquidation_zones lows highs levs).length =
      (lows.length + highs.length) * levs.length := by
  rw [calculate_liquidation_zones_eq, List.length_append,
    List.length_flatten, List.length_flatten, List.map_map, List.map_map]
  rw [sum_map_length_const _ _ levs.length (fun p => by simp),
    sum_map_length_const _ _ levs.length (fun p => by simp)]
  ring

/-- Witness for C3: one swing low and two swing highs against two tiers give
six zones. -/
theorem zone_cardinality_witness :
    (∀ l ∈ [(10 : ℤ), 25], 0 < l) ∧
      (calculate_liquidation_zones [90] [100, 110] [10, 25]).length =
        ([(90 : ℚ)].length + [(100 : ℚ), 110].length) * [(10 : ℤ), 25].length :=
  ⟨by decide, zone_cardinality [90] [100, 110] [10, 25] (by decide)⟩

/-- C4: every zone the aggregator produces is traceable to a swing of the
matching kind, and (for positive swing prices and tiers above 1) a long
liquidation lies strictly below its originating swing low while a short
liquidation lies strictly above its originating swing high. -/
theorem zone_side_invariant (lows highs : List ℚ) (levs : List ℤ)
    (hlow : ∀ p ∈ lows, 0 < p) (hhigh : ∀ p ∈ highs, 0 < p)
    (hlev : ∀ l ∈ levs, 1 < l) :
    ∀ z ∈ calculate_liquidation_zones lows highs levs,
      (z.type = .longLiq →
        ∃ p, p ∈ lows ∧ ∃ l, l ∈ levs ∧ z = mkLongZone p l ∧ z.price < p) ∧
      (z.type = .shortLiq →
        ∃ p, p ∈ highs ∧ ∃ l, l ∈ levs ∧ z = mkShortZone p l ∧ p < z.price) := by
  intro z hz
  rw [calculate_liquidation_zones_eq, List.mem_append] at hz
  rcases hz with hz | hz
  · rw [List.mem_flatten] at hz
    obtain ⟨blk, hblk, hzblk⟩ := hz
    rw [List.mem_map] at hblk
    obtain ⟨p, hp, rfl⟩ := hblk
    rw [List.mem_map] at hzblk
    obtain ⟨l, hl, rfl⟩ := hzblk
    have hp0 := hlow p hp
    have hl1 := hlev l hl
    have hlq : (1 : ℚ) < (l : ℚ) := by exact_mod_cast hl1
    have hpos : 0 < p * (1 / (l : ℚ)) :=
      mul_pos hp0 (one_div_pos.mpr (lt_trans zero_lt_one hlq))
    refine ⟨fun _ => ⟨p, hp, l, hl, rfl, ?_⟩, fun habs => ?_⟩
    · show p - p * (1 / (l : ℚ)) < p
      linarith
    · simp [mkLongZone] at habs
  · rw [List.mem_flatten] at hz
    obtain ⟨blk, hblk, hzblk⟩ := hz
    rw [List.mem_map] at hblk
    obtain ⟨p, hp, rfl⟩ := hblk
    rw [List.mem_map] at hzblk
    obtain ⟨l, hl, rfl⟩ := hzblk
    have hp0 := hhigh p hp
    have hl1 := hlev l hl
    have hlq : (1 : ℚ) < (l : ℚ) := by exact_mod_cast hl1
    have hpos : 0 < p * (1 / (l : ℚ)) :=
      mul_pos hp0 (one_div_pos.mpr (lt_trans zero_lt_one hlq))
    refine ⟨fun habs => ?_, fun _ => ⟨p, hp, l, hl, rfl, ?_⟩⟩
    · simp [mkShortZone] at habs
    · show p < p + p * (1 / (l : ℚ))
      linarith

/-- Witness for C4 on one swing low (90), one swing high (100) and tier 25. -/
theorem zone_side_invariant_witness :
    (∀ p ∈ [(90 : ℚ)], 0 < p) ∧ (∀ p ∈ [(100 : ℚ)], 0 < p) ∧
      (∀ l ∈ [(25 : ℤ)], 1 < l) ∧
      (∀ z ∈ calculate_liquidation_zones [90] [100] [25],
        (z.type = .longLiq →
          ∃ p, p ∈ [(90 : ℚ)] ∧ ∃ l, l ∈ [(25 : ℤ)] ∧
            z = mkLongZone p l ∧ z.price < p) ∧
        (z.type = .shortLiq →
          ∃ p, p ∈ [(100 : ℚ)] ∧ ∃ l, l ∈ [(25 : ℤ)] ∧
            z = mkShortZone p l ∧ p < z.price)) :=
  ⟨by decide, by decide, by decide,
    zone_side_invariant [90] [100] [25] (by decide) (by decide) (by decide)⟩

/-- C10 (implicit ordering claim): the aggregator's output order is fixed —
every long-liquidation zone precedes every short-liquidation zone, within each
side the zones are grouped by swing point in series order, and inside each
swing's group the tiers appear in the caller-supplied order.  This is exactly
the closed form below. -/
theorem zone_output_order (lows highs : List ℚ) (levs : List ℤ)
    (hlev : ∀ l ∈ levs, 0 < l) :
    calculate_liquidation_zones lows highs levs =
      (lows.map fun p => levs.map (mkLongZone p)).flatten ++
      (highs.map fun p => levs.map (mkShortZone p)).flatten :=
  calculate_liquidation_zones_eq lows highs levs

/-- Witness for C10 on two swing lows, one swing high and two tiers. -/
theorem zone_output_order_witness :
    (∀ l ∈ [(10 : ℤ), 25], 0 < l) ∧
      calculate_liquidation_zones [90, 95] [100] [10, 25] =
        ([(90 : ℚ), 95].map fun p => [(10 : ℤ), 25].map (mkLongZone p)).flatten ++
        ([(100 : ℚ)].map fun p => [(10 : ℤ), 25].map (mkShortZone p)).flatten :=
  ⟨by decide, zone_output_order [90, 95] [100] [10, 25] (by decide)⟩

/-- C8 counterexample: a three-bar series is shorter than `2*5+1` bars, yet
with the default window 5 the detector still marks swing points (the global
maximum, index 2, dominates its clipped neighbourhood), so the swing set is
not empty. -/
theorem short_series_counterexample :
    [(1 : ℚ), 2, 3].length < 2 * 5 + 1 ∧
      swing_high_indices [(1 : ℚ), 2, 3] 5 = [2] ∧
      swing_high_indices [(1 : ℚ), 2, 3] 5 ≠ [] ∧
      swing_low_indices [(1 : ℚ), 2, 3] 5 = [0] := by
  refine ⟨by decide, by decide, by decide, by decide⟩

/-- C8 amended: on a series shorter than `2*w+1` bars the detector raises no
error, but its swing set is empty exactly when the series is empty: because
comparisons are index-clipped, any nonempty series marks at least its global
maximum as a swing High and its global minimum as a swing Low. -/
theorem short_series_behavior (high low : List ℚ) (w : ℕ) (hw : 1 ≤ w)
    (hlen : high.length = low.length) (hshort : high.length < 2 * w + 1) :
    (swing_high_indices high w = [] ∧ swing_low_indices low w = []) ↔
      (high = [] ∧ low = []) := by
  constructor
  · rintro ⟨hh, hl⟩
    have hhe : high = [] := by
      by_contra hne
      exact swing_high_indices_ne_nil high w hne hh
    refine ⟨hhe, ?_⟩
    rw [hhe] at hlen
    exact List.length_eq_zero.mp hlen.symm
  · rintro ⟨rfl, rfl⟩
    exact ⟨rfl, rfl⟩

/-- Witness for amended C8 on the empty series with the default window 5. -/
theorem short_series_behavior_witness :
    1 ≤ 5 ∧ ([] : List ℚ).length = ([] : List ℚ).length ∧
      ([] : List ℚ).length < 2 * 5 + 1 ∧
      ((swing_high_indices ([] : List ℚ) 5 = [] ∧
        swing_low_indices ([] : List ℚ) 5 = []) ↔
        (([] : List ℚ) = [] ∧ ([] : List ℚ) = [])) :=
  ⟨by decide, rfl, by decide,
    short_series_behavior [] [] 5 (by decide) rfl (by decide)⟩

/-- C9: empty inputs propagate as empty outputs through the whole pipeline
with no failure: an empty series yields no swing markers and no swing prices,
an empty swing set or an empty tier list yields no zones, and an empty zone
collection filters to an empty collection. -/
theorem empty_input_closure (w : ℕ) (lows highs : List ℚ) (levs : List ℤ)
    (p a b : ℚ) :
    swing_high_indices [] w = [] ∧ swing_low_indices [] w = [] ∧
    swing_high_values [] w = [] ∧ swing_low_values [] w = [] ∧
    calculate_liquidation_zones [] [] levs = [] ∧
    calculate_liquidation_zones lows highs [] = [] ∧
    filter_near_current [] p a b = [] := by
  refine ⟨rfl, rfl, rfl, rfl, rfl, ?_, rfl⟩
  rw [calculate_liquidation_zones_eq]
  simp

/-- C5: the display filter retains exactly the zones whose price lies strictly
between `p * lower_ratio` and `p * upper_ratio`; the result is a sublist of
the input, so relative order is preserved and no zone is altered. -/
theorem filter_retention (Z : List Zone) (p a b : ℚ) (hp : 0 < p)
    (hab : a < b) :
    (filter_near_current Z p a b).Sublist Z ∧
      ∀ z, z ∈ filter_near_current Z p a b ↔
        z ∈ Z ∧ p * a < z.price ∧ z.price < p * b := by
  refine ⟨List.filter_sublist Z, fun z => ?_⟩
  simp [filter_near_current, List.mem_filter, and_assoc]

/-- Witness for C5 at current price 95 with integer band ratios. -/
theorem filter_retention_witness :
    (0 : ℚ) < 95 ∧ (0 : ℚ) < 2 ∧
      ((filter_near_current [⟨81, .longLiq, 10⟩] 95 0 2).Sublist
          [(⟨81, .longLiq, 10⟩ : Zone)] ∧
        ∀ z, z ∈ filter_near_current [⟨81, .longLiq, 10⟩] 95 0 2 ↔
          z ∈ [(⟨81, .longLiq, 10⟩ : Zone)] ∧
            (95 : ℚ) * 0 < z.price ∧ z.price < (95 : ℚ) * 2) :=
  ⟨by decide, by decide,
    filter_retention [⟨81, .longLiq, 10⟩] 95 0 2 (by decide) (by decide)⟩

/-- C6: applying the display filter twice with the same arguments equals
applying it once. -/
theorem filter_idempotent (Z : List Zone) (p a b : ℚ) :
    filter_near_current (filter_near_current Z p a b) p a b =
      filter_near_current Z p a b := by
  simp [filter_near_current, List.filter_filter]

end LiquidityHunter
